import Mathlib

/-!
Verification development for the two orchestration scripts of the
berkeley-function-call-leaderboard memory benchmark:
`bfcl_ingestion.py` (push conversation records into a memory backend) and
`bfcl_search.py` (query the backend and persist deduplicated search results).

The scripts are shallowly embedded: every pure computation is translated
into a Lean function; effectful pieces (thread pool, file appends, console
logging, the wall clock, environment variables) are made explicit as
parameters and as output components (explicit state passing):
  * `os.getenv(name)` becomes an `Option String` parameter;
  * a backend client call that may raise becomes an `Except String _` value
    supplied per task (the network behaviour is the environment's choice);
  * the `as_completed` iteration order of the worker pool becomes an
    explicit completion-order list (theorems quantify over it or take it
    as a permutation of the submitted tasks);
  * the ledger / result-store file becomes an explicit list of appended
    lines, and console error output becomes an explicit list of log
    entries;
  * `datetime.now()` values are irrelevant to every property proved here
    and are abstracted to a single string / integer parameter per task.
-/

namespace BFCL

/-- One turn of a conversation trajectory: the Python dict
`{"role": ..., "content": ...}`. -/
structure Message where
  role : String
  content : String
deriving DecidableEq, Repr

/-- A conversation record from the ingestion dataset: the fields of the
JSON object that `bfcl_ingestion.py` reads (`sample_id`, `trajectory`). -/
structure Conversation where
  sample_id : String
  trajectory : List Message
deriving DecidableEq, Repr

/-- The valid backend kinds accepted by `get_client` in both scripts. -/
inductive Frame where
  | memobase
  | memosApi
  | memosApiOnline
  | memu
  | supermemory
  | mem0
deriving DecidableEq, Repr

/-- The string value of a backend kind as it appears in `--lib` / `FRAME`. -/
def Frame.str : Frame → String
  | .memobase => "memobase"
  | .memosApi => "memos-api"
  | .memosApiOnline => "memos-api-online"
  | .memu => "memu"
  | .supermemory => "supermemory"
  | .mem0 => "mem0"

/-- Python string slicing `s[:n]`: the first `n` characters.  (Equal to
`String.take`, see `pySlice_eq_take`; stated on the character list so that
it evaluates without deep recursion on the bound.) -/
def pySlice (s : String) (n : Nat) : String :=
  ⟨s.data.take n⟩

theorem pySlice_eq_take (s : String) (n : Nat) : pySlice s n = s.take n :=
  (String.take_eq s n).symm

theorem pySlice_length_le (s : String) (n : Nat) : (pySlice s n).length ≤ n := by
  show (s.data.take n).length ≤ n
  rw [List.length_take]
  omega

/-- A message as rebuilt by the `memobase` / `supermemory` branches of
`process_single_conversation`: `{"role": ..., "content": msg["content"][:8000],
"chat_time": datetime.now().isoformat()}`. -/
structure TimedMessage where
  role : String
  content : String
  chat_time : String
deriving DecidableEq, Repr

/-- The exact argument tuple that `process_single_conversation` passes to
`client.add`, one constructor per `frame` branch. -/
inductive AddCall where
  | memobase (messages : List TimedMessage) (user_id : String)
  | memosApi (trajectory : List Message) (user_id : String) (conv_id : String)
  | memosApiOnline (trajectory : List Message) (user_id : String)
  | memu (trajectory : List Message) (user_id : String) (iso_time : String)
  | supermemory (messages : List TimedMessage) (user_id : String)
  | mem0 (trajectory : List Message) (user_id : String) (timestamp : Int)
deriving DecidableEq, Repr

/-- The session key (`user_id`) under which an `AddCall` stores data. -/
def AddCall.userId : AddCall → String
  | .memobase _ u => u
  | .memosApi _ u _ => u
  | .memosApiOnline _ u => u
  | .memu _ u _ => u
  | .supermemory _ u => u
  | .mem0 _ u _ => u

/-- The trajectory passed through verbatim by an `AddCall` (`none` for the
two backends that rebuild the message list). -/
def AddCall.rawTrajectory : AddCall → Option (List Message)
  | .memobase _ _ => none
  | .memosApi t _ _ => some t
  | .memosApiOnline t _ => some t
  | .memu t _ _ => some t
  | .supermemory _ _ => none
  | .mem0 t _ _ => some t

/-- The sequence of `content` strings sent to the backend by an `AddCall`. -/
def AddCall.sentContents : AddCall → List String
  | .memobase ms _ => ms.map (fun m => m.content)
  | .memosApi t _ _ => t.map (fun m => m.content)
  | .memosApiOnline t _ => t.map (fun m => m.content)
  | .memu t _ _ => t.map (fun m => m.content)
  | .supermemory ms _ => ms.map (fun m => m.content)
  | .mem0 t _ _ => t.map (fun m => m.content)

/-- `bfcl_ingestion.py:process_single_conversation`.  `versionEnv` is
`os.getenv("VERSION")`; `now_iso` / `now_ts` stand for the
`datetime.now()` readings of this call.  The returned `AddCall` is the
argument tuple handed to `client.add`. -/
def process_single_conversation (conversation : Conversation) (frame : Frame)
    (versionEnv : Option String) (now_iso : String) (now_ts : Int) : AddCall :=
  let version := versionEnv.getD "default_version"
  let user_id := conversation.sample_id ++ "_" ++ frame.str ++ "_" ++ version
  let trajectory := conversation.trajectory
  match frame with
  | .memobase =>
      .memobase (trajectory.map (fun msg =>
        { role := msg.role, content := pySlice msg.content 8000, chat_time := now_iso })) user_id
  | .memosApi => .memosApi trajectory user_id ""
  | .memosApiOnline => .memosApiOnline trajectory user_id
  | .memu => .memu trajectory user_id now_iso
  | .supermemory =>
      .supermemory (trajectory.map (fun msg =>
        { role := msg.role, content := pySlice msg.content 8000, chat_time := now_iso })) user_id
  | .mem0 => .mem0 trajectory user_id now_ts

/-- Python `str()` applied to an optional environment value (an f-string
renders a missing `os.getenv` result as `"None"`). -/
def pyStr : Option String → String
  | some s => s
  | none => "None"

/-- The `user_id` computed by `bfcl_search.py:search_memory`:
`f"{test_entry_id}_{frame}_{version}"` with `frame = os.getenv("FRAME")`
and `version = os.getenv("VERSION", "default_version")`. -/
def search_memory_user_id (test_entry_id : String) (frameEnv : Option String)
    (versionEnv : Option String) : String :=
  test_entry_id ++ "_" ++ pyStr frameEnv ++ "_" ++ versionEnv.getD "default_version"

/-- A memory record as handled by `search_single_test_case` after the
dict-normalisation step: the only field the script reads is `item.get("id")`
(`none` when the record has no `id` key); everything else is opaque payload. -/
structure Mem where
  id : Option Nat
  payload : String
deriving DecidableEq, Repr

/-- A test case entry from the BFCL dataset: its `id` and its `question`
field, a list of turns, each turn a list of role/content messages. -/
structure TestCase where
  id : String
  question : List (List Message)
deriving DecidableEq, Repr

/-- The CLI flags of `bfcl_search.py` that `collect_test_cases` consults. -/
structure SearchArgs where
  allow_overwrite : Bool
  run_ids : Bool
deriving DecidableEq, Repr

/-- One line of `search_results.jsonl`; `collect_test_cases` only reads the
`id` field of each entry. -/
structure StoreEntry where
  id : String
deriving DecidableEq, Repr

/-- The question-extraction loop of `search_single_test_case`: every
`content` of a `role == "user"` message, turn by turn, in order. -/
def extract_questions (tc : TestCase) : List String :=
  tc.question.flatMap (fun turn =>
    (turn.filter (fun msg => msg.role == "user")).map (fun msg => msg.content))

/-- The per-question search loop of `search_single_test_case`: extend
`mem_list` with each successful `search_memory` result in question order; a
question whose search raises is logged (second component) and skipped. -/
def collect_mems (searchFn : String → Except String (List Mem)) (qs : List String) :
    List Mem × List String :=
  qs.foldl (fun acc q =>
    match searchFn q with
    | .ok memories => (acc.1 ++ memories, acc.2)
    | .error e => (acc.1, acc.2 ++ [e])) ([], [])

/-- One step of the deduplication loop: state is (`seen_ids`, `dedup_mem_list`);
the `seen_ids` set is modelled as the list of keys inserted so far. -/
def dedup_step (s : List (Option Nat) × List Mem) (item : Mem) :
    List (Option Nat) × List Mem :=
  if item.id ∈ s.1 then s else (s.1 ++ [item.id], s.2 ++ [item])

/-- The deduplication loop of `search_single_test_case`: keep an item iff its
`item.get("id")` key has not been seen before. -/
def dedup_by_id (l : List Mem) : List Mem :=
  (l.foldl dedup_step ([], [])).2

/-- The record returned by `search_single_test_case` (one line of
`search_results.jsonl` once written). -/
structure SearchResult where
  id : String
  questions : List String
  memories : List Mem
  mem_context : String
deriving DecidableEq, Repr

/-- `bfcl_search.py:search_single_test_case`.  `searchFn` is the behaviour of
`search_memory` on each question (raising = `.error`); `ctxFn` is the
behaviour of `create_mem_context` (backend- and data-dependent formatting,
raising = `.error`).  Returns the result record together with the list of
error messages written to the console (`tqdm.write`). -/
def search_single_test_case (searchFn : String → Except String (List Mem))
    (ctxFn : List Mem → Except String String) (tc : TestCase) :
    SearchResult × List String :=
  let test_entry_id := tc.id
  let all_questions := extract_questions tc
  let searched := collect_mems searchFn all_questions
  let dedup_mem_list := dedup_by_id searched.1
  let ctx : String × List String :=
    if dedup_mem_list.isEmpty then ("", [])
    else
      match ctxFn dedup_mem_list with
      | .ok s => (s, [])
      | .error e => ("", [e])
  ({ id := test_entry_id, questions := all_questions,
     memories := dedup_mem_list, mem_context := ctx.1 },
   searched.2 ++ ctx.2)

/-- `bfcl_search.py:collect_test_cases`.  `store` is the state of
`search_results.jsonl` (`none` = the file does not exist); `key` abstracts
`sort_key`.  Returns the state of the file after the overwrite branch
(`unlink` = `none`) and the sorted filtered task list. -/
def collect_test_cases (args : SearchArgs) (key : TestCase → Nat)
    (store : Option (List StoreEntry)) (all_test_entries_involved : List TestCase) :
    Option (List StoreEntry) × List TestCase :=
  let branch : Option (List StoreEntry) × List String :=
    match store with
    | some entries =>
        if !args.allow_overwrite then (some entries, entries.map (fun e => e.id))
        else if !args.run_ids then (none, [])
        else (some entries, [])
    | none => (none, [])
  let test_cases_to_search :=
    all_test_entries_involved.filter (fun tc => !(branch.2.contains tc.id))
  (branch.1, test_cases_to_search.insertionSort (fun a b => key a ≤ key b))

/-- The conversations submitted to the pool by `ingest_conversation`: the
dict comprehension keeps exactly those whose `sample_id` is not among the
loaded `success_records`. -/
def ingest_submitted (data : List Conversation) (success_records : List String) :
    List Conversation :=
  data.filter (fun c => !(success_records.contains c.sample_id))

/-- The observable outcome of one submitted ingestion task:
`backend` is what `future.result()` does (the `process_single_conversation`
call), `ledgerWrite` is what `f.write`/`f.flush` does for this task. -/
structure IngestOutcome where
  conv : Conversation
  backend : Except String Unit
  ledgerWrite : Except String Unit
deriving Repr

/-- The accumulated state of the `as_completed` loop of
`ingest_conversation`: `completed_count`, the ledger lines appended so far,
and the console error log (pairs of `sample_id` and exception text). -/
structure IngestState where
  count : Nat
  ledger : List String
  logs : List (String × String)
deriving DecidableEq, Repr

/-- One iteration of the `as_completed` loop of `ingest_conversation`:
`future.result()` raising is caught and logged; on success the counter is
incremented FIRST, then (when a ledger file is open, `useLedger`) the
`sample_id` line is appended — a write failure is caught by the same
`except`, logged, and leaves the counter incremented. -/
def ingest_step (useLedger : Bool) (s : IngestState) (o : IngestOutcome) : IngestState :=
  match o.backend with
  | .error e => { s with logs := s.logs ++ [(o.conv.sample_id, e)] }
  | .ok _ =>
      if useLedger then
        match o.ledgerWrite with
        | .ok _ =>
            { s with count := s.count + 1, ledger := s.ledger ++ [o.conv.sample_id] }
        | .error e =>
            { s with count := s.count + 1, logs := s.logs ++ [(o.conv.sample_id, e)] }
      else { s with count := s.count + 1 }

/-- The `as_completed` loop of `ingest_conversation` over a given completion
order of the submitted conversations, with the backend / ledger-write
behaviour of each task supplied by the environment. -/
def ingest_conversation (useLedger : Bool) (completion_order : List Conversation)
    (backendRes : Conversation → Except String Unit)
    (writeRes : Conversation → Except String Unit) : IngestState :=
  (completion_order.map (fun c => IngestOutcome.mk c (backendRes c) (writeRes c))).foldl
    (ingest_step useLedger) ⟨0, [], []⟩

/-- The observable outcome of one submitted search task in
`generate_search_results`: `res` is what `future.result()` does, `storeWrite`
is what the `json.dumps`/`f.write`/`f.flush` sequence does for this task. -/
structure SearchOutcome where
  res : Except String SearchResult
  storeWrite : Except String Unit
deriving Repr

/-- The accumulated state of the `as_completed` loop of
`generate_search_results`: the result-store lines appended so far and the
progress-bar count (updated on both the success and the error path). -/
structure GenState where
  store : List SearchResult
  pbar : Nat
deriving DecidableEq, Repr

/-- One iteration of the `as_completed` loop of `generate_search_results`:
a raising `future.result()` or a raising write is caught (the record is then
absent from the store); `pbar.update(1)` runs on every path. -/
def generate_step (s : GenState) (o : SearchOutcome) : GenState :=
  match o.res with
  | .error _ => { s with pbar := s.pbar + 1 }
  | .ok r =>
      match o.storeWrite with
      | .ok _ => { store := s.store ++ [r], pbar := s.pbar + 1 }
      | .error _ => { s with pbar := s.pbar + 1 }

/-- The `as_completed` loop of `generate_search_results` over the submitted
tasks' outcomes in completion order. -/
def generate_search_results (outcomes : List SearchOutcome) : GenState :=
  outcomes.foldl generate_step ⟨[], 0⟩

/-- Whether a modelled effect succeeded (did not raise). -/
def resOk : Except String Unit → Bool
  | .ok _ => true
  | .error _ => false

/-- Whether `future.result()` succeeded for an ingestion task. -/
def backendOk (o : IngestOutcome) : Bool :=
  resOk o.backend

/-- Whether the ledger write succeeded for an ingestion task. -/
def writeOk (o : IngestOutcome) : Bool :=
  resOk o.ledgerWrite

/-- The exception text of a failed step (empty for a success). -/
def errText : Except String Unit → String
  | .ok _ => ""
  | .error s => s

/-- The result-store line produced by one search outcome: present exactly
when both `future.result()` and the write succeeded. -/
def writtenRecord (o : SearchOutcome) : Option SearchResult :=
  match o.res, o.storeWrite with
  | .ok r, .ok _ => some r
  | _, _ => none

section DedupLemmas

theorem foldl_dedup_cons (seen : List (Option Nat)) (acc : List Mem) (x : Mem)
    (xs : List Mem) :
    (x :: xs).foldl dedup_step (seen, acc) =
      if x.id ∈ seen then xs.foldl dedup_step (seen, acc)
      else xs.foldl dedup_step (seen ++ [x.id], acc ++ [x]) := by
  by_cases h : x.id ∈ seen <;> simp [List.foldl_cons, dedup_step, h]

theorem dedup_go_sublist (l : List Mem) :
    ∀ (seen : List (Option Nat)) (acc : List Mem),
      ∃ r : List Mem, (l.foldl dedup_step (seen, acc)).2 = acc ++ r ∧ r.Sublist l := by
  induction l with
  | nil => exact fun seen acc => ⟨[], by simp, List.Sublist.refl _⟩
  | cons x xs ih =>
      intro seen acc
      rw [foldl_dedup_cons]
      by_cases h : x.id ∈ seen
      · obtain ⟨r, hr, hs⟩ := ih seen acc
        exact ⟨r, by simpa [h] using hr, hs.cons x⟩
      · obtain ⟨r, hr, hs⟩ := ih (seen ++ [x.id]) (acc ++ [x])
        refine ⟨x :: r, ?_, hs.cons₂ x⟩
        simpa [h] using hr

theorem dedup_go_nodup (l : List Mem) :
    ∀ (seen : List (Option Nat)) (acc : List Mem),
      (∀ a ∈ acc, a.id ∈ seen) → (acc.map Mem.id).Nodup →
      (((l.foldl dedup_step (seen, acc)).2.map Mem.id)).Nodup := by
  induction l with
  | nil => intro seen acc _ hnd; simpa using hnd
  | cons x xs ih =>
      intro seen acc hss hnd
      rw [foldl_dedup_cons]
      by_cases h : x.id ∈ seen
      · simpa [h] using ih seen acc hss hnd
      · simp only [h, if_false]
        refine ih (seen ++ [x.id]) (acc ++ [x]) ?_ ?_
        · intro a ha
          rcases List.mem_append.1 ha with ha | ha
          · exact List.mem_append.2 (Or.inl (hss a ha))
          · simp at ha
            simp [ha]
        · have hx : x.id ∉ acc.map Mem.id := by
            intro hmem
            obtain ⟨a, ha, hia⟩ := List.mem_map.1 hmem
            exact h (hia ▸ hss a ha)
          simp [List.nodup_append, hnd, hx]

theorem dedup_go_covers (l : List Mem) :
    ∀ (seen : List (Option Nat)) (acc : List Mem),
      (∀ a ∈ seen, ∃ y ∈ acc, y.id = a) →
      ∀ x ∈ l, ∃ y ∈ (l.foldl dedup_step (seen, acc)).2, y.id = x.id := by
  induction l with
  | nil => intro _ _ _ x hx; cases hx
  | cons x xs ih =>
      intro seen acc hseen z hz
      rw [foldl_dedup_cons]
      by_cases h : x.id ∈ seen
      · simp only [h, if_true]
        rcases List.mem_cons.1 hz with rfl | hz
        · obtain ⟨y, hy, hid⟩ := hseen z.id h
          obtain ⟨r, hr, _⟩ := dedup_go_sublist xs seen acc
          exact ⟨y, hr ▸ List.mem_append.2 (Or.inl hy), hid⟩
        · exact ih seen acc hseen z hz
      · simp only [h, if_false]
        have hseen2 : ∀ a ∈ seen ++ [x.id], ∃ y ∈ acc ++ [x], y.id = a := by
          intro a ha
          rcases List.mem_append.1 ha with ha | ha
          · obtain ⟨y, hy, hid⟩ := hseen a ha
            exact ⟨y, List.mem_append.2 (Or.inl hy), hid⟩
          · simp at ha
            exact ⟨x, List.mem_append.2 (Or.inr (by simp)), ha.symm⟩
        rcases List.mem_cons.1 hz with hzx | hz
        · obtain ⟨r, hr, _⟩ := dedup_go_sublist xs (seen ++ [x.id]) (acc ++ [x])
          refine ⟨x, hr ▸ ?_, by rw [hzx]⟩
          exact List.mem_append.2 (Or.inl (List.mem_append.2 (Or.inr (by simp))))
        · exact ih (seen ++ [x.id]) (acc ++ [x]) hseen2 z hz

theorem dedup_go_first (l : List Mem) :
    ∀ (seen : List (Option Nat)) (acc : List Mem),
      ∀ y ∈ (l.foldl dedup_step (seen, acc)).2,
        y ∈ acc ∨
          ((l.filter (fun z => z.id == y.id)).head? = some y ∧ y.id ∉ seen) := by
  induction l with
  | nil => intro seen acc y hy; exact Or.inl (by simpa using hy)
  | cons x xs ih =>
      intro seen acc y hy
      rw [foldl_dedup_cons] at hy
      by_cases h : x.id ∈ seen
      · simp only [h, if_true] at hy
        rcases ih seen acc y hy with hacc | ⟨hhd, hns⟩
        · exact Or.inl hacc
        · have hne : (x.id == y.id) = false := by
            simp only [beq_eq_false_iff_ne, ne_eq]
            intro hxy
            exact hns (hxy ▸ h)
          exact Or.inr ⟨by simpa [List.filter_cons, hne] using hhd, hns⟩
      · simp only [h, if_false] at hy
        rcases ih (seen ++ [x.id]) (acc ++ [x]) y hy with hacc | ⟨hhd, hns⟩
        · rcases List.mem_append.1 hacc with hacc | hx
          · exact Or.inl hacc
          · simp only [List.mem_singleton] at hx
            subst hx
            refine Or.inr ⟨?_, h⟩
            simp [List.filter_cons]
        · have hns2 : y.id ∉ seen ∧ y.id ≠ x.id := by
            constructor
            · intro hmem; exact hns (List.mem_append.2 (Or.inl hmem))
            · intro hxy; exact hns (List.mem_append.2 (Or.inr (by simp [hxy])))
          have hne : (x.id == y.id) = false := by
            simp only [beq_eq_false_iff_ne, ne_eq]
            exact fun hxy => hns2.2 hxy.symm
          exact Or.inr ⟨by simpa [List.filter_cons, hne] using hhd, hns2.1⟩

theorem dedup_go_idnone (l : List Mem) :
    ∀ (seen : List (Option Nat)) (acc : List Mem),
      ((l.foldl dedup_step (seen, acc)).2.filter (fun m => m.id == none)) =
        acc.filter (fun m => m.id == none) ++
          (if none ∈ seen then [] else (l.filter (fun m => m.id == none)).take 1) := by
  induction l with
  | nil => intro seen acc; by_cases h : (none : Option Nat) ∈ seen <;> simp [h]
  | cons x xs ih =>
      intro seen acc
      rw [foldl_dedup_cons]
      by_cases h : x.id ∈ seen
      · simp only [h, if_true]
        rw [ih seen acc]
        by_cases hn : x.id = none
        · have : (none : Option Nat) ∈ seen := hn ▸ h
          simp [this]
        · have hne : (x.id == (none : Option Nat)) = false := by
            simpa [beq_eq_false_iff_ne] using hn
          simp [List.filter_cons, hne]
      · simp only [h, if_false]
        rw [ih (seen ++ [x.id]) (acc ++ [x])]
        by_cases hn : x.id = none
        · have h1 : (none : Option Nat) ∉ seen := hn ▸ h
          have h2 : (none : Option Nat) ∈ seen ++ [x.id] := by simp [hn]
          have hxt : (x.id == (none : Option Nat)) = true := by simp [hn]
          simp [List.filter_append, List.filter_cons, hxt, h1, h2]
        · have hne : (x.id == (none : Option Nat)) = false := by
            simpa [beq_eq_false_iff_ne] using hn
          have hiff : ((none : Option Nat) ∈ seen ++ [x.id]) ↔ ((none : Option Nat) ∈ seen) := by
            simp
            intro hc
            exact absurd hc.symm hn
          by_cases hs : (none : Option Nat) ∈ seen
          · simp [List.filter_append, List.filter_cons, hne, hs, hiff.mpr hs]
          · have : (none : Option Nat) ∉ seen ++ [x.id] := fun hc => hs (hiff.1 hc)
            simp [List.filter_append, List.filter_cons, hne, hs, this]

theorem dedup_by_id_sublist (l : List Mem) : (dedup_by_id l).Sublist l := by
  obtain ⟨r, hr, hs⟩ := dedup_go_sublist l [] []
  simpa [dedup_by_id, hr] using hs

theorem dedup_by_id_nodup (l : List Mem) : ((dedup_by_id l).map Mem.id).Nodup := by
  simpa [dedup_by_id] using
    dedup_go_nodup l [] [] (by intro a ha; cases ha) (by simp)

theorem dedup_by_id_covers (l : List Mem) :
    ∀ x ∈ l, ∃ y ∈ dedup_by_id l, y.id = x.id := by
  simpa [dedup_by_id] using dedup_go_covers l [] [] (by intro a ha; cases ha)

theorem dedup_by_id_first (l : List Mem) :
    ∀ y ∈ dedup_by_id l, (l.filter (fun z => z.id == y.id)).head? = some y := by
  intro y hy
  rcases dedup_go_first l [] [] y (by simpa [dedup_by_id] using hy) with hacc | ⟨hhd, _⟩
  · cases hacc
  · exact hhd

end DedupLemmas

section RunnerLemmas

theorem collect_mems_go (searchFn : String → Except String (List Mem))
    (rs : String → List Mem) (qs : List String) :
    ∀ acc : List Mem × List String, (∀ q ∈ qs, searchFn q = .ok (rs q)) →
      qs.foldl (fun acc q =>
        match searchFn q with
        | .ok memories => (acc.1 ++ memories, acc.2)
        | .error e => (acc.1, acc.2 ++ [e])) acc = (acc.1 ++ qs.flatMap rs, acc.2) := by
  induction qs with
  | nil => intro acc _; simp
  | cons q qs ih =>
      intro acc hok
      have hq : searchFn q = .ok (rs q) := hok q (by simp)
      rw [List.foldl_cons, hq]
      rw [ih _ (fun p hp => hok p (by simp [hp]))]
      simp

theorem collect_mems_all_ok (searchFn : String → Except String (List Mem))
    (rs : String → List Mem) (qs : List String)
    (hok : ∀ q ∈ qs, searchFn q = .ok (rs q)) :
    collect_mems searchFn qs = (qs.flatMap rs, []) := by
  simpa [collect_mems] using collect_mems_go searchFn rs qs ([], []) hok

theorem ingest_foldl_count (useLedger : Bool) (os : List IngestOutcome) :
    ∀ s : IngestState,
      (os.foldl (ingest_step useLedger) s).count =
        s.count + (os.filter backendOk).length := by
  induction os with
  | nil => intro s; simp
  | cons o os ih =>
      intro s
      rw [List.foldl_cons, ih]
      cases hb : o.backend with
      | ok u =>
          cases u
          have hbo : backendOk o = true := by simp [backendOk, resOk, hb]
          cases useLedger with
          | false =>
              simp [ingest_step, hb, List.filter_cons, hbo]
              omega
          | true =>
              cases hw : o.ledgerWrite <;>
                simp [ingest_step, hb, hw, List.filter_cons, hbo] <;> omega
      | error e =>
          have hbo : backendOk o = false := by simp [backendOk, resOk, hb]
          simp [ingest_step, hb, List.filter_cons, hbo]

theorem ingest_foldl_ledger (os : List IngestOutcome) :
    ∀ s : IngestState,
      (os.foldl (ingest_step true) s).ledger =
        s.ledger ++ ((os.filter (fun o => backendOk o && writeOk o)).map
          (fun o => o.conv.sample_id)) := by
  induction os with
  | nil => intro s; simp
  | cons o os ih =>
      intro s
      rw [List.foldl_cons, ih]
      cases hb : o.backend with
      | ok u =>
          cases u
          cases hw : o.ledgerWrite with
          | ok u2 =>
              cases u2
              simp [ingest_step, hb, hw, List.filter_cons, backendOk, writeOk, resOk]
          | error e2 =>
              simp [ingest_step, hb, hw, List.filter_cons, backendOk, writeOk, resOk]
      | error e =>
          simp [ingest_step, hb, List.filter_cons, backendOk, resOk]

theorem ingest_foldl_logs (os : List IngestOutcome) :
    ∀ s : IngestState,
      (os.foldl (ingest_step true) s).logs =
        s.logs ++ ((os.filter (fun o => !(backendOk o && writeOk o))).map
          (fun o => (o.conv.sample_id,
            if backendOk o then errText o.ledgerWrite else errText o.backend))) := by
  induction os with
  | nil => intro s; simp
  | cons o os ih =>
      intro s
      rw [List.foldl_cons, ih]
      cases hb : o.backend with
      | ok u =>
          cases u
          cases hw : o.ledgerWrite with
          | ok u2 =>
              cases u2
              simp [ingest_step, hb, hw, List.filter_cons, backendOk, writeOk, resOk]
          | error e2 =>
              simp [ingest_step, hb, hw, List.filter_cons, backendOk, writeOk, resOk, errText]
      | error e =>
          simp [ingest_step, hb, List.filter_cons, backendOk, resOk, errText]

theorem generate_foldl_store (os : List SearchOutcome) :
    ∀ s : GenState,
      (os.foldl generate_step s).store = s.store ++ os.filterMap writtenRecord := by
  induction os with
  | nil => intro s; simp
  | cons o os ih =>
      intro s
      rw [List.foldl_cons, ih]
      cases hr : o.res with
      | ok r =>
          cases hw : o.storeWrite with
          | ok u => cases u; simp [generate_step, hr, hw, List.filterMap_cons, writtenRecord]
          | error e => simp [generate_step, hr, hw, List.filterMap_cons, writtenRecord]
      | error e =>
          simp [generate_step, hr, List.filterMap_cons, writtenRecord]

theorem generate_foldl_pbar (os : List SearchOutcome) :
    ∀ s : GenState, (os.foldl generate_step s).pbar = s.pbar + os.length := by
  induction os with
  | nil => intro s; simp
  | cons o os ih =>
      intro s
      rw [List.foldl_cons, ih]
      cases hr : o.res with
      | ok r =>
          cases hw : o.storeWrite <;> simp [generate_step, hr, hw] <;> omega
      | error e => simp [generate_step, hr]; omega

end RunnerLemmas

/-- C8.  Session key derivation and stability: both
`process_single_conversation` (ingestion) and `search_memory` (search)
derive the session key as `task_id ++ "_" ++ frame ++ "_" ++ version`,
with the version read from the `VERSION` environment value and defaulting
to `"default_version"`; for a fixed task id, backend kind and version the
key is identical in both scripts, and it does not depend on the trajectory
or the wall clock, hence is stable across resumed runs. -/
theorem session_key_stable (sample_id : String) (frame : Frame)
    (versionEnv : Option String) (traj traj2 : List Message)
    (now now2 : String) (ts ts2 : Int) :
    ((process_single_conversation ⟨sample_id, traj⟩ frame versionEnv now ts).userId
        = sample_id ++ "_" ++ frame.str ++ "_" ++ versionEnv.getD "default_version")
    ∧ (search_memory_user_id sample_id (some frame.str) versionEnv
        = sample_id ++ "_" ++ frame.str ++ "_" ++ versionEnv.getD "default_version")
    ∧ ((process_single_conversation ⟨sample_id, traj⟩ frame versionEnv now ts).userId
        = search_memory_user_id sample_id (some frame.str) versionEnv)
    ∧ ((process_single_conversation ⟨sample_id, traj⟩ frame versionEnv now ts).userId
        = (process_single_conversation ⟨sample_id, traj2⟩ frame versionEnv now2 ts2).userId)
    ∧ (search_memory_user_id sample_id (some frame.str) none
        = sample_id ++ "_" ++ frame.str ++ "_" ++ "default_version") := by
  cases frame <;>
    simp [process_single_conversation, AddCall.userId, search_memory_user_id, pyStr,
      Frame.str]

/-- C9.  Content truncation: for the `memobase` and `supermemory` backends,
`process_single_conversation` truncates every message's `content` to its
first 8000 characters before calling `client.add` (so every sent content has
length at most 8000), while for each of the other four backends the
trajectory object is passed to `client.add` verbatim, contents untouched. -/
theorem content_truncation (c : Conversation) (versionEnv : Option String)
    (now : String) (ts : Int) :
    ((process_single_conversation c .memobase versionEnv now ts).sentContents
        = c.trajectory.map (fun m => pySlice m.content 8000))
    ∧ ((process_single_conversation c .supermemory versionEnv now ts).sentContents
        = c.trajectory.map (fun m => pySlice m.content 8000))
    ∧ (∀ s ∈ (process_single_conversation c .memobase versionEnv now ts).sentContents,
        s.length ≤ 8000)
    ∧ (∀ s ∈ (process_single_conversation c .supermemory versionEnv now ts).sentContents,
        s.length ≤ 8000)
    ∧ ((process_single_conversation c .memosApi versionEnv now ts).rawTrajectory
        = some c.trajectory)
    ∧ ((process_single_conversation c .memosApiOnline versionEnv now ts).rawTrajectory
        = some c.trajectory)
    ∧ ((process_single_conversation c .memu versionEnv now ts).rawTrajectory
        = some c.trajectory)
    ∧ ((process_single_conversation c .mem0 versionEnv now ts).rawTrajectory
        = some c.trajectory)
    ∧ ((process_single_conversation c .memosApi versionEnv now ts).sentContents
        = c.trajectory.map (fun m => m.content))
    ∧ ((process_single_conversation c .memosApiOnline versionEnv now ts).sentContents
        = c.trajectory.map (fun m => m.content))
    ∧ ((process_single_conversation c .memu versionEnv now ts).sentContents
        = c.trajectory.map (fun m => m.content))
    ∧ ((process_single_conversation c .mem0 versionEnv now ts).sentContents
        = c.trajectory.map (fun m => m.content)) := by
  have hmb : (process_single_conversation c .memobase versionEnv now ts).sentContents
      = c.trajectory.map (fun m => pySlice m.content 8000) := by
    show ((c.trajectory.map _).map _) = _
    rw [List.map_map]
    rfl
  have hsm : (process_single_conversation c .supermemory versionEnv now ts).sentContents
      = c.trajectory.map (fun m => pySlice m.content 8000) := by
    show ((c.trajectory.map _).map _) = _
    rw [List.map_map]
    rfl
  refine ⟨hmb, hsm, ?_, ?_, rfl, rfl, rfl, rfl, rfl, rfl, rfl, rfl⟩
  · rw [hmb]
    intro s hs
    obtain ⟨m, _, rfl⟩ := List.mem_map.1 hs
    exact pySlice_length_le m.content 8000
  · rw [hsm]
    intro s hs
    obtain ⟨m, _, rfl⟩ := List.mem_map.1 hs
    exact pySlice_length_le m.content 8000

/-- C9 witness: a concrete conversation, evaluated. -/
theorem content_truncation_witness :
    ((process_single_conversation ⟨"A", [⟨"user", "hello"⟩]⟩ .memobase none "t0" 0).sentContents
        = [pySlice "hello" 8000])
    ∧ (pySlice "hello" 8000).length ≤ 8000 := by
  have h := content_truncation ⟨"A", [⟨"user", "hello"⟩]⟩ none "t0" 0
  refine ⟨h.1.trans rfl, ?_⟩
  apply h.2.2.1
  rw [h.1]
  simp

/-- C10.  Dedup of id-less memories: the dedup key of
`search_single_test_case` is `item.get("id")`, so every memory lacking an
`id` maps to the key `none`: the id-less memories surviving deduplication
are exactly the first id-less memory of the concatenation (if any), and
every later id-less memory is dropped — e.g. of two distinct id-less
records only the first survives.  (The result list of
`search_single_test_case` is exactly `dedup_by_id` of the concatenated
search results, normalisation to a dict being identity in this model.) -/
theorem dedup_idless_memories (l : List Mem) :
    ((dedup_by_id l).filter (fun m => m.id == none)
        = (l.filter (fun m => m.id == none)).take 1)
    ∧ (dedup_by_id [⟨none, "x"⟩, ⟨some 5, "y"⟩, ⟨none, "z"⟩]
        = [⟨none, "x"⟩, ⟨some 5, "y"⟩])
    ∧ (∀ searchFn ctxFn tc,
        (search_single_test_case searchFn ctxFn tc).1.memories
          = dedup_by_id (collect_mems searchFn (extract_questions tc)).1) := by
  refine ⟨?_, by rfl, fun searchFn ctxFn tc => rfl⟩
  simpa [dedup_by_id] using dedup_go_idnone l [] []

/-- Helper: with no overwrite, `collect_test_cases` keeps the store file and
its returned list holds exactly the candidates whose id is not among the
stored ids. -/
theorem collect_no_overwrite (run_ids : Bool) (key : TestCase → Nat)
    (entries : List StoreEntry) (cands : List TestCase) :
    ((collect_test_cases ⟨false, run_ids⟩ key (some entries) cands).1 = some entries)
    ∧ (∀ tc, tc ∈ (collect_test_cases ⟨false, run_ids⟩ key (some entries) cands).2 ↔
        tc ∈ cands ∧ tc.id ∉ entries.map (fun e => e.id)) := by
  refine ⟨rfl, fun tc => ?_⟩
  have hperm := List.perm_insertionSort (fun a b => key a ≤ key b)
    (cands.filter (fun tc => !((entries.map (fun e => e.id)).contains tc.id)))
  have hmem : tc ∈ (collect_test_cases ⟨false, run_ids⟩ key (some entries) cands).2 ↔
      tc ∈ cands.filter (fun tc => !((entries.map (fun e => e.id)).contains tc.id)) :=
    hperm.mem_iff
  rw [hmem, List.mem_filter]
  simp

/-- Helper: membership in the result of `collect_test_cases` when the
loaded `existing_ids` set is empty (overwrite, or overwrite with run-ids):
every candidate is kept. -/
theorem collect_empty_ids (a r : Bool) (key : TestCase → Nat)
    (store : Option (List StoreEntry)) (cands : List TestCase)
    (hids : (collect_test_cases ⟨a, r⟩ key store cands).2
      = (cands.filter (fun tc => !(([] : List String).contains tc.id))).insertionSort
          (fun x y => key x ≤ key y)) :
    ((collect_test_cases ⟨a, r⟩ key store cands).2.Perm cands)
    ∧ (∀ tc, tc ∈ (collect_test_cases ⟨a, r⟩ key store cands).2 ↔ tc ∈ cands) := by
  have hfil : cands.filter (fun tc => !(([] : List String).contains tc.id)) = cands := by
    rw [List.filter_congr (q := fun _ => true) (by intro x _; rfl)]
    exact List.filter_true cands
  rw [hids, hfil]
  have hperm := List.perm_insertionSort (fun x y => key x ≤ key y) cands
  exact ⟨hperm, fun tc => hperm.mem_iff⟩

/-- C5 counterexample: with the run-ids flag set but overwrite not set, a
named test case whose id is already in the Result Store is NOT processed —
`collect_test_cases` still applies the completed-set exclusion and returns
the empty list here, contradicting the claim that every named test case is
processed. -/
theorem run_ids_no_bypass_cex :
    ((⟨"A", []⟩ : TestCase) ∈ ([⟨"A", []⟩] : List TestCase))
    ∧ ((⟨"A", []⟩ : TestCase).id ∈ ([⟨"A"⟩] : List StoreEntry).map (fun e => e.id))
    ∧ ((⟨"A", []⟩ : TestCase) ∉
        (collect_test_cases ⟨false, true⟩ (fun _ => 0) (some [⟨"A"⟩]) [⟨"A", []⟩]).2) := by
  refine ⟨by simp, by simp, ?_⟩
  rw [show (collect_test_cases ⟨false, true⟩ (fun _ => 0) (some [⟨"A"⟩]) [⟨"A", []⟩]).2
      = [] from rfl]
  exact List.not_mem_nil _

/-- C5 amended.  The completed-set exclusion is bypassed for the named IDs
only when the run-ids flag is set TOGETHER with the overwrite flag: then
every named test case is returned (processed) even if its id is already in
the Result Store, and the store file is neither deleted nor truncated (no
entry for an unnamed identifier is overwritten or removed; new records are
appended).  With run-ids alone, the normal completed-set exclusion applies,
exactly as without the flag. -/
theorem run_ids_with_overwrite (entries : List StoreEntry) (key : TestCase → Nat)
    (cands : List TestCase) :
    ((collect_test_cases ⟨true, true⟩ key (some entries) cands).1 = some entries)
    ∧ ((collect_test_cases ⟨true, true⟩ key (some entries) cands).2.Perm cands)
    ∧ (∀ tc, tc ∈ (collect_test_cases ⟨true, true⟩ key (some entries) cands).2 ↔
        tc ∈ cands)
    ∧ (∀ cand2 : List TestCase,
        collect_test_cases ⟨false, true⟩ key (some entries) cand2
          = collect_test_cases ⟨false, false⟩ key (some entries) cand2) := by
  obtain ⟨hperm, hmem⟩ :=
    collect_empty_ids true true key (some entries) cands rfl
  exact ⟨rfl, hperm, hmem, fun cand2 => rfl⟩

/-- C6.  Overwrite semantics: with the overwrite flag set and the run-ids
flag not set, `collect_test_cases` deletes the pre-existing
`search_results.jsonl` (the returned file state is `none`) and returns the
full candidate task list (the skip set is empty; the list is the candidates,
re-sorted), so every previously completed task is reprocessed and
re-appended. -/
theorem overwrite_semantics (entries : List StoreEntry) (key : TestCase → Nat)
    (cands : List TestCase) :
    ((collect_test_cases ⟨true, false⟩ key (some entries) cands).1 = none)
    ∧ ((collect_test_cases ⟨true, false⟩ key (some entries) cands).2.Perm cands)
    ∧ (∀ tc, tc ∈ (collect_test_cases ⟨true, false⟩ key (some entries) cands).2 ↔
        tc ∈ cands) := by
  obtain ⟨hperm, hmem⟩ :=
    collect_empty_ids true false key (some entries) cands rfl
  exact ⟨rfl, hperm, hmem⟩

/-- C1.  Idempotent resume: the set of tasks submitted to the worker pool is
exactly the candidates whose identifier is not in the loaded completed set —
a pure set difference.  In ingestion, a conversation whose `sample_id` is in
`success_records` is never submitted to `process_single_conversation`; in
search without overwrite, a test case whose id is among the ids already in
`search_results.jsonl` is never in the list handed to
`search_single_test_case`. -/
theorem idempotent_resume
    (data : List Conversation) (success_records : List String)
    (entries : List StoreEntry) (run_ids : Bool) (key : TestCase → Nat)
    (cands : List TestCase) :
    (∀ c, c ∈ ingest_submitted data success_records ↔
        c ∈ data ∧ c.sample_id ∉ success_records)
    ∧ (∀ c ∈ data, c.sample_id ∈ success_records →
        c ∉ ingest_submitted data success_records)
    ∧ (∀ tc, tc ∈ (collect_test_cases ⟨false, run_ids⟩ key (some entries) cands).2 ↔
        tc ∈ cands ∧ tc.id ∉ entries.map (fun e => e.id))
    ∧ (∀ tc ∈ cands, tc.id ∈ entries.map (fun e => e.id) →
        tc ∉ (collect_test_cases ⟨false, run_ids⟩ key (some entries) cands).2) := by
  have hing : ∀ c, c ∈ ingest_submitted data success_records ↔
      c ∈ data ∧ c.sample_id ∉ success_records := by
    intro c
    rw [ingest_submitted, List.mem_filter]
    simp
  have hsearch := (collect_no_overwrite run_ids key entries cands).2
  refine ⟨hing, ?_, hsearch, ?_⟩
  · intro c _ hmem hc
    exact ((hing c).1 hc).2 hmem
  · intro tc _ hmem htc
    exact ((hsearch tc).1 htc).2 hmem

/-- C1 witness: ledger `{A,B}` and candidates `{A,B,C}` leave exactly `C`. -/
theorem idempotent_resume_witness :
    ((⟨"C", []⟩ : Conversation) ∈
        ingest_submitted [⟨"A", []⟩, ⟨"B", []⟩, ⟨"C", []⟩] ["A", "B"])
    ∧ ((⟨"A", []⟩ : Conversation) ∉
        ingest_submitted [⟨"A", []⟩, ⟨"B", []⟩, ⟨"C", []⟩] ["A", "B"])
    ∧ ((⟨"A", []⟩ : TestCase) ∉
        (collect_test_cases ⟨false, false⟩ (fun _ => 0)
          (some [⟨"A"⟩, ⟨"B"⟩]) [⟨"A", []⟩, ⟨"B", []⟩, ⟨"C", []⟩]).2) := by
  have h := idempotent_resume [⟨"A", []⟩, ⟨"B", []⟩, ⟨"C", []⟩] ["A", "B"]
    [⟨"A"⟩, ⟨"B"⟩] false (fun _ => 0) [⟨"A", []⟩, ⟨"B", []⟩, ⟨"C", []⟩]
  refine ⟨?_, ?_, ?_⟩
  · exact (h.1 _).2 ⟨by simp, by simp⟩
  · exact h.2.1 _ (by simp) (by simp)
  · exact h.2.2.2 _ (by simp) (by simp)

/-- Concrete per-question search results for witnesses: `q1` yields ids 1,2
and any other question yields ids 2,3. -/
def exRs : String → List Mem := fun q =>
  if q = "q1" then [⟨some 1, "m1"⟩, ⟨some 2, "m2"⟩]
  else [⟨some 2, "m2dup"⟩, ⟨some 3, "m3"⟩]

/-- A search behaviour that always succeeds with `exRs`. -/
def exSearchFn : String → Except String (List Mem) := fun q => .ok (exRs q)

/-- A context builder that always succeeds. -/
def exCtxOk : List Mem → Except String String := fun _ => .ok "ctx"

/-- A context builder that always raises. -/
def exCtxFail : List Mem → Except String String := fun _ => .error "ctxboom"

/-- A concrete test case with two user questions `q1`, `q2`. -/
def exTC : TestCase := ⟨"t1", [[⟨"user", "q1"⟩], [⟨"user", "q2"⟩]]⟩

/-- C2.  Dedup correctness: `search_single_test_case` concatenates the
memory lists returned by the per-question searches in question order and
deduplicates by the memory's id with first-occurrence-wins: the resulting
list is a sublist of the concatenation (order preserved), its ids are
pairwise distinct, every id of the concatenation is represented, and each
kept element is the first element of the concatenation bearing its id; the
spec's example `[id 1, id 2] ++ [id 2, id 3]` merges to `[id 1, id 2, id 3]`. -/
theorem search_dedup_correct
    (searchFn : String → Except String (List Mem))
    (ctxFn : List Mem → Except String String) (tc : TestCase)
    (rs : String → List Mem)
    (hok : ∀ q ∈ extract_questions tc, searchFn q = Except.ok (rs q))
    (L M : List Mem)
    (hL : L = (extract_questions tc).flatMap rs)
    (hM : M = (search_single_test_case searchFn ctxFn tc).1.memories) :
    (M = dedup_by_id L)
    ∧ M.Sublist L
    ∧ (M.map Mem.id).Nodup
    ∧ (∀ x ∈ L, ∃ y ∈ M, y.id = x.id)
    ∧ (∀ y ∈ M, (L.filter (fun z => z.id == y.id)).head? = some y)
    ∧ (dedup_by_id ([⟨some 1, "m1"⟩, ⟨some 2, "m2"⟩] ++ [⟨some 2, "m2dup"⟩, ⟨some 3, "m3"⟩])
        = [⟨some 1, "m1"⟩, ⟨some 2, "m2"⟩, ⟨some 3, "m3"⟩]) := by
  have hmem : M = dedup_by_id L := by
    rw [hM, hL]
    show dedup_by_id (collect_mems searchFn (extract_questions tc)).1 = _
    rw [collect_mems_all_ok searchFn rs (extract_questions tc) hok]
  subst hL
  exact ⟨hmem, hmem ▸ dedup_by_id_sublist _, hmem ▸ dedup_by_id_nodup _,
    fun x hx => hmem ▸ dedup_by_id_covers _ x hx,
    fun y hy => dedup_by_id_first _ y (hmem ▸ hy), rfl⟩

/-- C2 witness: the spec's example run end to end. -/
theorem search_dedup_correct_witness :
    (search_single_test_case exSearchFn exCtxOk exTC).1.memories
      = [⟨some 1, "m1"⟩, ⟨some 2, "m2"⟩, ⟨some 3, "m3"⟩] := by
  have h := search_dedup_correct exSearchFn exCtxOk exTC exRs
    (fun q _ => rfl) _ _ rfl rfl
  exact h.1.trans (by rfl)

/-- C7.  Context formatting fallback: when the deduplicated memory list is
non-empty and `create_mem_context` raises, `search_single_test_case` still
returns a result record with that memory list and an empty `mem_context`;
the failure is logged, and an outcome carrying this record with a
successful write is appended to the Result Store by `generate_search_results`
with the progress count advancing exactly as for any other task. -/
theorem context_formatting_fallback
    (searchFn : String → Except String (List Mem))
    (ctxFn : List Mem → Except String String) (tc : TestCase) (e : String)
    (hne : dedup_by_id (collect_mems searchFn (extract_questions tc)).1 ≠ [])
    (hfail : ctxFn (dedup_by_id (collect_mems searchFn (extract_questions tc)).1)
      = Except.error e) :
    ((search_single_test_case searchFn ctxFn tc).1 =
      { id := tc.id, questions := extract_questions tc,
        memories := dedup_by_id (collect_mems searchFn (extract_questions tc)).1,
        mem_context := "" })
    ∧ (e ∈ (search_single_test_case searchFn ctxFn tc).2)
    ∧ (∀ s : GenState,
        generate_step s ⟨.ok (search_single_test_case searchFn ctxFn tc).1, .ok ()⟩
          = ⟨s.store ++ [(search_single_test_case searchFn ctxFn tc).1], s.pbar + 1⟩) := by
  have hie : (dedup_by_id (collect_mems searchFn (extract_questions tc)).1).isEmpty
      = false := by
    cases hb : (dedup_by_id (collect_mems searchFn (extract_questions tc)).1).isEmpty
    · rfl
    · exact absurd (List.isEmpty_iff.1 hb) hne
  refine ⟨?_, ?_, ?_⟩
  · simp [search_single_test_case, hie, hfail]
  · simp [search_single_test_case, hie, hfail]
  · intro s
    simp [generate_step]

/-- C7 witness: concrete failing context builder on a non-empty dedup list. -/
theorem context_formatting_fallback_witness :
    ((search_single_test_case exSearchFn exCtxFail exTC).1 =
      { id := "t1", questions := ["q1", "q2"],
        memories := [⟨some 1, "m1"⟩, ⟨some 2, "m2"⟩, ⟨some 3, "m3"⟩],
        mem_context := "" })
    ∧ ("ctxboom" ∈ (search_single_test_case exSearchFn exCtxFail exTC).2) := by
  have h := context_formatting_fallback exSearchFn exCtxFail exTC "ctxboom"
    (by decide) rfl
  exact ⟨h.1.trans (by rfl), h.2.1⟩

/-- Helper: the ledger produced by a full ingestion run, as a function of
each task's backend and write outcome (in completion order). -/
theorem ingest_conversation_ledger (order : List Conversation)
    (backendRes writeRes : Conversation → Except String Unit) :
    (ingest_conversation true order backendRes writeRes).ledger
      = (order.filter (fun c => resOk (backendRes c) && resOk (writeRes c))).map
          (fun c => c.sample_id) := by
  show ((order.map (fun c => IngestOutcome.mk c (backendRes c) (writeRes c))).foldl
      (ingest_step true) ⟨0, [], []⟩).ledger = _
  rw [ingest_foldl_ledger, List.filter_map, List.map_map]
  rfl

/-- Helper: the completion count produced by a full ingestion run counts
exactly the tasks whose backend call succeeded (write outcomes ignored). -/
theorem ingest_conversation_count (order : List Conversation)
    (backendRes writeRes : Conversation → Except String Unit) :
    (ingest_conversation true order backendRes writeRes).count
      = (order.filter (fun c => resOk (backendRes c))).length := by
  show ((order.map (fun c => IngestOutcome.mk c (backendRes c) (writeRes c))).foldl
      (ingest_step true) ⟨0, [], []⟩).count = _
  rw [ingest_foldl_count, List.filter_map, List.length_map]
  show 0 + (order.filter
      (backendOk ∘ fun c => IngestOutcome.mk c (backendRes c) (writeRes c))).length = _
  rw [Nat.zero_add]
  rfl

/-- Helper: the console error log of a full ingestion run. -/
theorem ingest_conversation_logs (order : List Conversation)
    (backendRes writeRes : Conversation → Except String Unit) :
    (ingest_conversation true order backendRes writeRes).logs
      = (order.filter (fun c => !(resOk (backendRes c) && resOk (writeRes c)))).map
          (fun c => (c.sample_id,
            if resOk (backendRes c) then errText (writeRes c)
            else errText (backendRes c))) := by
  show ((order.map (fun c => IngestOutcome.mk c (backendRes c) (writeRes c))).foldl
      (ingest_step true) ⟨0, [], []⟩).logs = _
  rw [ingest_foldl_logs, List.filter_map, List.map_map]
  rfl

/-- C3.  Per-task failure isolation: over any completion order of the
submitted tasks, with all ledger writes succeeding, a task whose backend
call raises is logged with its `sample_id` and the exception text, the
remaining tasks are unaffected (every successful task's id reaches the
ledger), the failed task's id is not appended to the ledger, and the
reported completion count equals the number of successful tasks. -/
theorem ingest_failure_isolation
    (data : List Conversation) (success_records : List String)
    (order : List Conversation)
    (backendRes writeRes : Conversation → Except String Unit)
    (horder : order.Perm (ingest_submitted data success_records))
    (hw : ∀ c, writeRes c = Except.ok ()) :
    ((ingest_conversation true order backendRes writeRes).count
        = ((ingest_submitted data success_records).filter
            (fun c => resOk (backendRes c))).length)
    ∧ ((ingest_conversation true order backendRes writeRes).ledger
        = (order.filter (fun c => resOk (backendRes c))).map (fun c => c.sample_id))
    ∧ ((ingest_conversation true order backendRes writeRes).ledger.Perm
        (((ingest_submitted data success_records).filter
            (fun c => resOk (backendRes c))).map (fun c => c.sample_id)))
    ∧ ((ingest_conversation true order backendRes writeRes).logs
        = (order.filter (fun c => !(resOk (backendRes c)))).map
            (fun c => (c.sample_id, errText (backendRes c))))
    ∧ (∀ c ∈ order, resOk (backendRes c) = true →
        c.sample_id ∈ (ingest_conversation true order backendRes writeRes).ledger)
    ∧ ((order.map (fun c => c.sample_id)).Nodup →
        ∀ c ∈ order, resOk (backendRes c) = false →
          c.sample_id ∉ (ingest_conversation true order backendRes writeRes).ledger) := by
  have hwt : ∀ c : Conversation, resOk (writeRes c) = true := by
    intro c
    rw [hw c]
    rfl
  have hled : (ingest_conversation true order backendRes writeRes).ledger
      = (order.filter (fun c => resOk (backendRes c))).map (fun c => c.sample_id) := by
    rw [ingest_conversation_ledger]
    congr 1
    apply List.filter_congr
    intro c _
    rw [hwt c, Bool.and_true]
  have hcnt : (ingest_conversation true order backendRes writeRes).count
      = ((ingest_submitted data success_records).filter
          (fun c => resOk (backendRes c))).length := by
    rw [ingest_conversation_count]
    exact (horder.filter _).length_eq
  have hlogs : (ingest_conversation true order backendRes writeRes).logs
      = (order.filter (fun c => !(resOk (backendRes c)))).map
          (fun c => (c.sample_id, errText (backendRes c))) := by
    rw [ingest_conversation_logs]
    have hfc : order.filter (fun c => !(resOk (backendRes c) && resOk (writeRes c)))
        = order.filter (fun c => !(resOk (backendRes c))) := by
      apply List.filter_congr
      intro c _
      rw [hwt c, Bool.and_true]
    rw [hfc]
    apply List.map_congr_left
    intro c hc
    have hcf : resOk (backendRes c) = false := by
      have := (List.mem_filter.1 hc).2
      simpa using this
    rw [hcf]
    simp
  refine ⟨hcnt, hled, ?_, hlogs, ?_, ?_⟩
  · rw [hled]
    exact (horder.filter _).map _
  · intro c hc hok
    rw [hled]
    exact List.mem_map_of_mem _ (List.mem_filter.2 ⟨hc, hok⟩)
  · intro hnd c hc hcf hmem
    rw [hled] at hmem
    obtain ⟨c2, hc2, hid⟩ := List.mem_map.1 hmem
    obtain ⟨hc2o, hc2p⟩ := List.mem_filter.1 hc2
    have : c2 = c := List.inj_on_of_nodup_map hnd hc2o hc hid
    rw [this] at hc2p
    rw [hcf] at hc2p
    cases hc2p

/-- Concrete completion order for the C3 witness: tasks A, B, C. -/
def exConvs : List Conversation := [⟨"A", []⟩, ⟨"B", []⟩, ⟨"C", []⟩]

/-- Backend behaviour for the C3 witness: only task B raises. -/
def exBackend : Conversation → Except String Unit :=
  fun c => if c.sample_id = "B" then .error "boom" else .ok ()

/-- Ledger-write behaviour for the C3 witness: always succeeds. -/
def exWrite : Conversation → Except String Unit := fun _ => .ok ()

/-- C3 witness: B fails among A, B, C — count 2 of 3, ledger exactly A, C,
and the failure logged under B's id. -/
theorem ingest_failure_isolation_witness :
    ((ingest_conversation true exConvs exBackend exWrite).count = 2)
    ∧ ((ingest_conversation true exConvs exBackend exWrite).ledger = ["A", "C"])
    ∧ ((ingest_conversation true exConvs exBackend exWrite).logs = [("B", "boom")]) := by
  have horder : exConvs.Perm (ingest_submitted exConvs []) := by
    rw [show ingest_submitted exConvs [] = exConvs from rfl]
  have h := ingest_failure_isolation exConvs [] exConvs exBackend exWrite
    horder (fun c => rfl)
  exact ⟨h.1.trans (by rfl), h.2.1.trans (by rfl), h.2.2.2.1.trans (by rfl)⟩

/-- C4 counterexample: a single task whose backend call succeeds but whose
ledger write raises IS included in the reported completion count (the
counter is incremented before the write), so it is not "omitted from the
reported completion count" as the claim states; its identifier is indeed
absent from the ledger. -/
theorem persistence_count_cex :
    ((ingest_conversation true [⟨"A", []⟩] (fun _ => Except.ok ())
        (fun _ => Except.error "disk full")).count = 1)
    ∧ ((ingest_conversation true [⟨"A", []⟩] (fun _ => Except.ok ())
        (fun _ => Except.error "disk full")).ledger = []) :=
  ⟨rfl, rfl⟩

/-- C4 amended.  If the ledger/result-store write for a task raises even
though the backend call succeeded, the task's identifier is absent from the
durable record (a ledger line needs backend AND write success; a store
record needs task AND write success) and the run continues over all other
tasks; however, in ingestion the task is still included in the reported
completion count, which counts backend successes regardless of write
failures (search reports no per-task success count; its progress bar
advances once per task either way). -/
theorem persistence_failure_amended
    (order : List Conversation)
    (backendRes writeRes : Conversation → Except String Unit)
    (sout : List SearchOutcome) :
    ((ingest_conversation true order backendRes writeRes).ledger
        = (order.filter (fun c => resOk (backendRes c) && resOk (writeRes c))).map
            (fun c => c.sample_id))
    ∧ ((ingest_conversation true order backendRes writeRes).count
        = (order.filter (fun c => resOk (backendRes c))).length)
    ∧ ((generate_search_results sout).store = sout.filterMap writtenRecord)
    ∧ ((generate_search_results sout).pbar = sout.length) := by
  refine ⟨ingest_conversation_ledger order backendRes writeRes,
    ingest_conversation_count order backendRes writeRes, ?_, ?_⟩
  · show (sout.foldl generate_step ⟨[], 0⟩).store = _
    rw [generate_foldl_store]
    rfl
  · show (sout.foldl generate_step ⟨[], 0⟩).pbar = _
    rw [generate_foldl_pbar]
    show 0 + sout.length = sout.length
    exact Nat.zero_add _

end BFCL
